import Mathlib

/-!
# Periodic cycle mining engine: shallow embedding and verification

This file embeds the periodic-cycle mining core of scikit-mine
(`PeriodicCycleMiner`): event indexing, candidate cycle generation with a
median-chosen period, an MDL cost model, the exact covering selector, the
shift codec, the reconstructor and the residual extractor, together with the
`fit` / `discover` / `get_residuals` / `reconstruct` external interface.

The Python sources of the engine itself are not part of the available
source tree (only the tutorial notebook that exercises it is), so every
operational definition below is modelled from the specification, as marked
in its doc comment.
-/

deriving instance DecidableEq for Except

namespace PCM

/-- Event labels (abstract discrete identifiers). -/
abbrev Label := Nat

/-- Timestamps: totally ordered, comparable as integers. -/
abbrev Timestamp := Int

/-- Modelled from the spec: an Occurrence is an (event label, timestamp) pair. -/
abbrev Occurrence := Label × Timestamp

/-- Modelled from the spec: an Event Log is an ordered sequence of Occurrences. -/
abbrev EventLog := List Occurrence

/-! ## Bit-length helper (floor of log2), fuel-structured so it evaluates -/

/-- Floor of base-2 logarithm, computed with explicit fuel (first argument);
`log2f f n = Nat.log 2 n` whenever `n ≤ f`. -/
def log2f : Nat → Nat → Nat
  | 0, _ => 0
  | f + 1, n => if n ≤ 1 then 0 else log2f f (n / 2) + 1

/-- Floor of base-2 logarithm of `n` (0 for `n ≤ 1`). -/
def lg (n : Nat) : Nat := log2f n n

/-! ## Event Index -/

/-- Modelled from the spec (§4.1 Event Index): the sorted list of distinct
timestamps at which label `a` occurs in the log (duplicates merged). -/
def perLabel (log : EventLog) (a : Label) : List Timestamp :=
  ((log.filterMap fun o => if o.1 = a then some o.2 else none).insertionSort
    (· ≤ ·)).dedup

/-- Modelled from the spec (§4.1): the distinct event labels of the log,
in a canonical (sorted) order. -/
def labelsOf (log : EventLog) : List Label :=
  ((log.map Prod.fst).insertionSort (· ≤ ·)).dedup

/-- Monotonicity check on a list of timestamps (each step non-decreasing). -/
def monoB : List Timestamp → Bool
  | [] => true
  | [_] => true
  | a :: b :: r => decide (a ≤ b) && monoB (b :: r)

/-- Modelled from the spec (§7(a)): the input log's timestamps, in the order
given by the caller, must be non-decreasing. -/
def timesMono (log : EventLog) : Bool := monoB (log.map Prod.snd)

/-! ## Shift codec -/

/-- Inter-occurrence gaps of a timestamp run. -/
def gapsOf (l : List Int) : List Int := l.zipWith (fun a b => b - a) l.tail

/-- Modelled from the spec (§4.5 forward):
`shifts[i] = timestamp[i+1] − timestamp[i] − p`. -/
def rawShifts (p : Int) : List Int → List Int
  | a :: b :: rest => (b - a - p) :: rawShifts p (b :: rest)
  | _ => []

/-- Drop the trailing run of zeros of a shift list. -/
def truncZeros (l : List Int) : List Int :=
  (l.reverse.dropWhile (· == 0)).reverse

/-- Modelled from the spec (§4.5 forward): encode a run's shifts against
period `p`, storing them with the trailing run of zeros truncated. -/
def encodeShifts (run : List Int) (p : Int) : List Int :=
  truncZeros (rawShifts p run)

/-- Modelled from the spec (§4.5 inverse): regenerate `r` timestamps from
`τ`, `p` and the stored shifts, missing trailing shift entries read as 0:
`timestamp[0] = τ`, `timestamp[i] = timestamp[i-1] + p + shifts[i-1]`. -/
def decodeTimes : Nat → Int → Int → List Int → List Int
  | 0, _, _, _ => []
  | r + 1, tau, p, shifts =>
      tau :: decodeTimes r (tau + p + shifts.headD 0) p shifts.tail

/-- Cumulative sum of the first `i` shifts (missing entries read as 0). -/
def sumShifts (s : List Int) (i : Nat) : Int :=
  ((List.range i).map fun j => s.getD j 0).sum

/-! ## Candidate period choice -/

/-- The lower median of a list: middle element of the sorted list, taking
the smaller of the two middle elements when the length is even. -/
def lowerMedian (l : List Int) : Int :=
  (l.insertionSort (· ≤ ·)).getD ((l.length - 1) / 2) 0

/-- Modelled from the spec (§4.2): the candidate's chosen period is the
median of the run's inter-occurrence gaps, ties broken toward the smaller
value — the value minimizing the total magnitude of shift corrections. -/
def chosenPeriod (run : List Int) : Int := lowerMedian (gapsOf run)

/-! ## MDL cost model -/

/-- Modelled from the spec (§4.3): bits to encode one shift correction,
proportional to `log2(1 + 2·|shift|)`; a zero shift costs nothing. -/
def shiftCost (s : Int) : Nat := 2 * lg (1 + 2 * s.natAbs)

/-- Modelled from the spec (§4.3): fixed part of a candidate cycle's cost —
`log2(r)`-scale bits for the length plus bits for the period and the start
timestamp, each drawn from the label's timestamp range `span`. -/
def baseCost (span : Nat) (r : Nat) : Nat :=
  lg r + lg (span + 1) + lg (span + 1)

/-- Modelled from the spec (§4.3): total MDL cost of a candidate cycle of
length `r` with shift list `shifts`, over a label of timestamp range `span`. -/
def candCost (span : Nat) (r : Nat) (shifts : List Int) : Nat :=
  baseCost span r + (shifts.map shiftCost).sum

/-- MDL cost of the candidate cycle built on a timestamp run. -/
def cycleCost (span : Nat) (run : List Int) : Nat :=
  candCost span run.length (rawShifts (chosenPeriod run) run)

/-- Modelled from the spec (§4.3): cost of leaving one occurrence
unexplained — the bits needed to name its timestamp individually in the
label's range. -/
def residCost (span : Nat) : Nat := lg (span + 1)

/-- Timestamp range of a label's (sorted) occurrence list. -/
def spanOf (ts : List Int) : Nat := ((ts.getLast?.getD 0) - ts.headD 0).toNat

/-! ## Cycle selector (exact covering search) -/

/-- One piece of a cover of a label's occurrence list: either a single
residual occurrence or a contiguous run assigned to one cycle. -/
inductive Seg where
  | resid (t : Int)
  | cyc (run : List Int)
deriving DecidableEq, Repr

/-- The occurrences a segment accounts for. -/
def Seg.points : Seg → List Int
  | .resid t => [t]
  | .cyc run => run

/-- MDL cost of one segment. -/
def segCost (span : Nat) : Seg → Nat
  | .resid _ => residCost span
  | .cyc run => cycleCost span run

/-- Total MDL cost of a cover. -/
def coverCost (span : Nat) (c : List Seg) : Nat := (c.map (segCost span)).sum

/-- Number of residual segments of a cover. -/
def residCount (c : List Seg) : Nat :=
  (c.filter fun s => match s with | .resid _ => true | _ => false).length

/-- Modelled from the spec (§4.4): all disjoint covers of a label's sorted
occurrence list by residuals and contiguous candidate runs of length 2..`L`
(the non-overlapping selector's search space); the first argument is fuel,
sufficient whenever it is at least the list's length. -/
def coversF (L : Nat) : Nat → List Int → List (List Seg)
  | _, [] => [[]]
  | 0, _ :: _ => []
  | f + 1, t :: rest =>
      ((coversF L f rest).map fun c => Seg.resid t :: c) ++
      (((List.range (min L (rest.length + 1) + 1)).filter fun r =>
          decide (2 ≤ r)).flatMap fun r =>
        (coversF L f ((t :: rest).drop r)).map fun c =>
          Seg.cyc ((t :: rest).take r) :: c)

/-- Choice step of the selector: keep the cheaper cover; on equal cost
prefer the one with fewer residuals (longer cycles). -/
def better (span : Nat) (best c : List Seg) : List Seg :=
  if coverCost span c < coverCost span best then c
  else if coverCost span c = coverCost span best ∧ residCount c < residCount best
  then c else best

/-- Select the minimum-cost cover from a candidate list. -/
def pickBest (span : Nat) : List (List Seg) → List Seg
  | [] => []
  | c :: cs => cs.foldl (better span) c

/-- Modelled from the spec (§4.4 Cycle Selector): the minimum total MDL cost
disjoint cover of a label's sorted occurrence list. -/
def mineCover (L : Nat) (ts : List Int) : List Seg :=
  pickBest (spanOf ts) (coversF L ts.length ts)

/-! ## Fitted model -/

/-- Modelled from the spec (§3): a Cycle — start `τ`, length `r`, period
`p`, and the stored (trailing-zero truncated) shift corrections. -/
structure Cycle where
  tau : Int
  r : Nat
  p : Int
  shifts : List Int
deriving DecidableEq, Repr

/-- Build the Cycle recorded for a selected run. -/
def mkCycle (run : List Int) : Cycle :=
  { tau := run.headD 0
    r := run.length
    p := chosenPeriod run
    shifts := encodeShifts run (chosenPeriod run) }

/-- Modelled from the spec (§4.5 inverse): the occurrence timestamps a
stored cycle represents. -/
def Cycle.decode (c : Cycle) : List Int :=
  decodeTimes c.r c.tau c.p c.shifts

/-- The cycles of a selected cover. -/
def coverCycles (cov : List Seg) : List Cycle :=
  cov.filterMap fun s => match s with
    | .cyc run => some (mkCycle run)
    | _ => none

/-- The residual occurrences of a selected cover. -/
def coverResiduals (cov : List Seg) : List Int :=
  cov.filterMap fun s => match s with
    | .resid t => some t
    | _ => none

/-- Catalogue entry of one label: its selected cycles and its residuals. -/
structure LabelEntry where
  label : Label
  cycles : List Cycle
  residuals : List Int
deriving DecidableEq, Repr

/-- Mine one label: select the best cover and record cycles and residuals. -/
def mkEntry (L : Nat) (a : Label) (ts : List Int) : LabelEntry :=
  { label := a
    cycles := coverCycles (mineCover L ts)
    residuals := coverResiduals (mineCover L ts) }

/-- Modelled from the spec (§6): fit configuration. -/
structure Config where
  maxLength : Nat := 20
  keepResiduals : Bool := false
deriving DecidableEq, Repr

/-- Recoverable conditions reported by `fit`. -/
inductive Warning where
  | duplicates
deriving DecidableEq, Repr

/-- Fatal input errors of `fit`. -/
inductive FitError where
  | emptyLog
  | nonMonotonic
deriving DecidableEq, Repr

/-- Modelled from the spec (§3, §6): the fitted model — the catalogue of
per-label entries, the warnings raised while fitting, and whether the
residual set was kept for external query. -/
structure Model where
  entries : List LabelEntry
  warnings : List Warning
  keptResiduals : Bool
deriving DecidableEq, Repr

/-- Modelled from the spec (§6 Fit, §7): fit the miner on an event log.
Empty or non-monotonic input is a fatal input error reported before any
mining; duplicate (label, timestamp) pairs are merged and reported as a
warning; every label is then mined independently over its deduplicated
sorted occurrence list. -/
def fit (cfg : Config) (log : EventLog) : Except FitError Model :=
  if log = [] then .error .emptyLog
  else if timesMono log = false then .error .nonMonotonic
  else .ok
    { entries := (labelsOf log).map fun a => mkEntry cfg.maxLength a (perLabel log a)
      warnings := if log.dedup = log then [] else [.duplicates]
      keptResiduals := cfg.keepResiduals }

/-! ## External accessors -/

/-- One row of `discover`'s output. -/
structure Row where
  label : Label
  idx : Nat
  start : Int
  len : Nat
  period : Int
deriving DecidableEq, Repr

/-- Modelled from the spec (§6): per (label, zero-based cycle index), the
(start, length, period) of each selected cycle. -/
def discover (m : Model) : List Row :=
  m.entries.flatMap fun e =>
    e.cycles.enum.map fun ic =>
      { label := e.label, idx := ic.1, start := ic.2.tau
        len := ic.2.r, period := ic.2.p }

/-- Modelled from the spec (§6): `discover` with `shifts = true`, each row
paired with the cycle's stored shift corrections. -/
def discoverShifts (m : Model) : List (Row × List Int) :=
  m.entries.flatMap fun e =>
    e.cycles.enum.map fun ic =>
      ({ label := e.label, idx := ic.1, start := ic.2.tau
         len := ic.2.r, period := ic.2.p }, ic.2.shifts)

/-- Modelled from the spec (§6): the retained residual occurrences, ordered
by timestamp; `none` when `keep_residuals` was false at fit time. -/
def getResiduals (m : Model) : Option (List Occurrence) :=
  if m.keptResiduals then
    some ((m.entries.flatMap fun e => e.residuals.map fun t => (e.label, t)
      ).insertionSort (fun x y => x.2 ≤ y.2))
  else none

/-- Modelled from the spec (§4.5, §6): one label's reconstructed occurrence
timestamps — all its cycles decoded, composed with its residuals. -/
def reconstructEntry (e : LabelEntry) : List Int :=
  (((e.cycles.map Cycle.decode).flatten) ++ e.residuals).insertionSort (· ≤ ·)

/-- The reconstructed occurrence timestamps of one label of a fitted model. -/
def reconstructLabel (m : Model) (a : Label) : List Int :=
  match m.entries.find? (fun e => e.label == a) with
  | some e => reconstructEntry e
  | none => []

/-- Modelled from the spec (§6): the full reconstructed Event Log. -/
def reconstruct (m : Model) : List Occurrence :=
  m.entries.flatMap fun e => (reconstructEntry e).map fun t => (e.label, t)

/-! ## Miner object (construction / fit / query chaining) -/

/-- Modelled from the spec (§6) and the tutorial's usage: the miner object,
holding its configuration and, once fitted, its model. -/
structure Miner where
  config : Config
  fitted : Option Model := none
deriving DecidableEq, Repr

/-- Modelled from the tutorial's usage: the `fit` method — mines the log and
returns the very same miner with its fitted model installed. -/
def Miner.fitM (self : Miner) (log : EventLog) : Except FitError Miner :=
  (fit self.config log).map fun md => { self with fitted := some md }

/-- `discover` called on a miner object (`none` when not fitted). -/
def Miner.discoverM (self : Miner) : Option (List Row) :=
  self.fitted.map discover

/-- Total shift-correction magnitude of a run against period `p`. -/
def totalDev (run : List Int) (p : Int) : Int :=
  ((rawShifts p run).map fun s => |s|).sum

/-- Sum of absolute deviations of a list of values from a point `p`. -/
def sumAbsDev (l : List Int) (p : Int) : Int := (l.map fun g => |g - p|).sum

/-- Lower median of an already sorted list. -/
def medSorted (l : List Int) : Int := l.getD ((l.length - 1) / 2) 0

end PCM

/-! # Proof layer -/

namespace PCM

/-! ## The bit-length function -/

theorem log2f_eq_log (f : Nat) : ∀ n, n ≤ f → log2f f n = Nat.log 2 n := by
  induction f with
  | zero =>
      intro n hn
      interval_cases n
      simp [log2f]
  | succ f ih =>
      intro n hn
      by_cases h1 : n ≤ 1
      · interval_cases n <;> simp [log2f]
      · have h2 : 2 ≤ n := by omega
        rw [log2f, if_neg (by omega), ih (n / 2) (by omega)]
        have hpos : 0 < Nat.log 2 n := Nat.log_pos (by norm_num) h2
        have hdiv := Nat.log_div_base 2 n
        omega

theorem lg_eq_log (n : Nat) : lg n = Nat.log 2 n := log2f_eq_log n n le_rfl

theorem lg_mono {a b : Nat} (h : a ≤ b) : lg a ≤ lg b := by
  rw [lg_eq_log, lg_eq_log]; exact Nat.log_mono_right h

/-! ## Cost monotonicity in shift magnitude -/

theorem shiftCost_mono {s s' : Int} (h : s.natAbs ≤ s'.natAbs) :
    shiftCost s ≤ shiftCost s' := by
  unfold shiftCost
  have := lg_mono (a := 1 + 2 * s.natAbs) (b := 1 + 2 * s'.natAbs) (by omega)
  omega

theorem shiftsCost_set_le :
    ∀ (l : List Int) (i : Nat) (s' : Int), (l.getD i 0).natAbs ≤ s'.natAbs →
      (l.map shiftCost).sum ≤ ((l.set i s').map shiftCost).sum := by
  intro l
  induction l with
  | nil => intro i s' _; simp
  | cons a t ih =>
      intro i s' h
      cases i with
      | zero =>
          simp only [List.getD_cons_zero] at h
          simp only [List.set_cons_zero, List.map_cons, List.sum_cons]
          exact Nat.add_le_add_right (shiftCost_mono h) _
      | succ i =>
          simp only [List.getD_cons_succ] at h
          simp only [List.set_cons_succ, List.map_cons, List.sum_cons]
          exact Nat.add_le_add_left (ih i s' h) _

theorem candCost_set_le (span r : Nat) (shifts : List Int) (i : Nat) (s' : Int)
    (h : (shifts.getD i 0).natAbs ≤ s'.natAbs) :
    candCost span r shifts ≤ candCost span r (shifts.set i s') := by
  unfold candCost
  exact Nat.add_le_add_left (shiftsCost_set_le shifts i s' h) _

/-! ## The shift codec -/

theorem decode_rawShifts (p : Int) :
    ∀ run : List Int, run ≠ [] →
      decodeTimes run.length (run.headD 0) p (rawShifts p run) = run := by
  intro run
  induction run with
  | nil => intro h; exact absurd rfl h
  | cons a t ih =>
      intro _
      cases t with
      | nil => simp [decodeTimes, rawShifts]
      | cons b rest =>
          have hb := ih (by simp)
          simp only [List.headD_cons, List.length_cons] at hb
          show decodeTimes (rest.length + 1 + 1) a p (rawShifts p (a :: b :: rest)) =
            a :: b :: rest
          have hraw : rawShifts p (a :: b :: rest) =
              (b - a - p) :: rawShifts p (b :: rest) := rfl
          rw [hraw]
          show a :: decodeTimes (rest.length + 1) (a + p + (b - a - p)) p
            (rawShifts p (b :: rest)) = a :: b :: rest
          have hab : a + p + (b - a - p) = b := by ring
          rw [hab, hb]

theorem decode_append_zeros :
    ∀ (r : Nat) (tau p : Int) (s : List Int) (k : Nat),
      decodeTimes r tau p (s ++ List.replicate k 0) = decodeTimes r tau p s := by
  intro r
  induction r with
  | zero => intro tau p s k; rfl
  | succ r ih =>
      intro tau p s k
      cases s with
      | nil =>
          cases k with
          | zero => rfl
          | succ k =>
              simp only [List.nil_append, List.replicate_succ, decodeTimes,
                List.headD_cons, List.tail_cons]
              have := ih (tau + p + 0) p [] k
              simp only [List.nil_append] at this
              rw [this]
              simp [decodeTimes]
      | cons x xs =>
          simp only [List.cons_append, decodeTimes, List.headD_cons,
            List.tail_cons]
          rw [ih]

theorem truncZeros_append (l : List Int) :
    ∃ k, l = truncZeros l ++ List.replicate k 0 := by
  refine ⟨(l.reverse.takeWhile (· == 0)).length, ?_⟩
  have h1 : l.reverse.takeWhile (· == 0) ++ l.reverse.dropWhile (· == 0) =
      l.reverse := List.takeWhile_append_dropWhile _ _
  have h2 : l.reverse.takeWhile (· == 0) =
      List.replicate (l.reverse.takeWhile (· == 0)).length (0 : Int) := by
    apply List.eq_replicate_of_mem
    intro b hb
    have := List.mem_takeWhile_imp hb
    simpa using this
  calc l = l.reverse.reverse := (List.reverse_reverse l).symm
    _ = (l.reverse.takeWhile (· == 0) ++ l.reverse.dropWhile (· == 0)).reverse := by
        rw [h1]
    _ = truncZeros l ++ (l.reverse.takeWhile (· == 0)).reverse := by
        rw [List.reverse_append]; rfl
    _ = truncZeros l ++ List.replicate (l.reverse.takeWhile (· == 0)).length 0 := by
        rw [h2, List.reverse_replicate, List.length_replicate]

theorem decode_encodeShifts (p : Int) (run : List Int) (h : run ≠ []) :
    decodeTimes run.length (run.headD 0) p (encodeShifts run p) = run := by
  obtain ⟨k, hk⟩ := truncZeros_append (rawShifts p run)
  unfold encodeShifts
  rw [← decode_append_zeros run.length (run.headD 0) p (truncZeros (rawShifts p run)) k,
    ← hk]
  exact decode_rawShifts p run h

theorem decode_length :
    ∀ (r : Nat) (tau p : Int) (s : List Int), (decodeTimes r tau p s).length = r := by
  intro r
  induction r with
  | zero => intro tau p s; rfl
  | succ r ih => intro tau p s; simp [decodeTimes, ih]

theorem decode_getD_zero (r : Nat) (hr : 0 < r) (tau p : Int) (s : List Int) :
    (decodeTimes r tau p s).getD 0 0 = tau := by
  cases r with
  | zero => omega
  | succ r => simp [decodeTimes]

theorem getD_zero_eq_headD (s : List Int) : s.getD 0 0 = s.headD 0 := by
  cases s <;> rfl

theorem decode_getD_succ :
    ∀ (r : Nat) (tau p : Int) (s : List Int) (i : Nat), i + 1 < r →
      (decodeTimes r tau p s).getD (i + 1) 0 =
        (decodeTimes r tau p s).getD i 0 + p + s.getD i 0 := by
  intro r
  induction r with
  | zero => intro tau p s i h; omega
  | succ r ih =>
      intro tau p s i h
      cases i with
      | zero =>
          simp only [decodeTimes, List.getD_cons_succ, List.getD_cons_zero]
          rw [decode_getD_zero r (by omega), getD_zero_eq_headD]
      | succ i =>
          simp only [decodeTimes, List.getD_cons_succ]
          rw [ih (tau + p + s.headD 0) p s.tail i (by omega)]
          have : s.tail.getD i 0 = s.getD (i + 1) 0 := by
            cases s <;> simp [List.getD_cons_succ]
          rw [this]

theorem decode_getD_closed :
    ∀ (i r : Nat), i < r → ∀ (tau p : Int) (s : List Int),
      (decodeTimes r tau p s).getD i 0 = tau + (i : Int) * p + sumShifts s i := by
  intro i
  induction i with
  | zero =>
      intro r h tau p s
      rw [decode_getD_zero r h]
      simp [sumShifts]
  | succ i ih =>
      intro r h tau p s
      rw [decode_getD_succ r tau p s i h, ih r (by omega) tau p s]
      have hsum : sumShifts s (i + 1) = sumShifts s i + s.getD i 0 := by
        unfold sumShifts
        rw [List.range_succ, List.map_append, List.sum_append]
        simp
      rw [hsum]
      push_cast
      ring

end PCM

namespace PCM

/-! ## The lower median minimizes total absolute deviation -/

theorem sumAbsDev_perm {l l' : List Int} (h : l.Perm l') (p : Int) :
    sumAbsDev l p = sumAbsDev l' p :=
  (h.map _).sum_eq

theorem pair_le (a b p : Int) : b - a ≤ |a - p| + |b - p| := by
  have h1 : b - p ≤ |b - p| := le_abs_self _
  have h2 : -(a - p) ≤ |a - p| := neg_le_abs _
  linarith

theorem pair_eq (a b m : Int) (h1 : a ≤ m) (h2 : m ≤ b) :
    |a - m| + |b - m| = b - a := by
  rw [abs_of_nonpos (by linarith), abs_of_nonneg (by linarith)]
  ring

theorem sumAbsDev_cons_append (a : Int) (mid : List Int) (b p : Int) :
    sumAbsDev (a :: (mid ++ [b])) p = |a - p| + sumAbsDev mid p + |b - p| := by
  simp [sumAbsDev]
  ring

theorem medSorted_min :
    ∀ (n : Nat) (l : List Int), l.length = n → l.Sorted (· ≤ ·) → l ≠ [] →
      ∀ p, sumAbsDev l (medSorted l) ≤ sumAbsDev l p := by
  intro n
  induction n using Nat.strong_induction_on with
  | _ n ih =>
    intro l hlen hs hne p
    rcases l with _ | ⟨a, t⟩
    · exact absurd rfl hne
    by_cases htnil : t = []
    · subst htnil
      have hmed : medSorted [a] = a := by simp [medSorted]
      rw [hmed]
      simp [sumAbsDev]
    obtain ⟨mid, b, hdecomp⟩ : ∃ mid b, mid ++ [b] = t :=
      ⟨t.dropLast, t.getLast htnil, List.dropLast_append_getLast htnil⟩
    rw [← hdecomp] at hs hlen ⊢
    by_cases hmidnil : mid = []
    · subst hmidnil
      have hab : a ≤ b := List.rel_of_sorted_cons hs b (by simp)
      have hmed : medSorted (a :: ([] ++ [b])) = a := by simp [medSorted]
      rw [hmed, sumAbsDev_cons_append, sumAbsDev_cons_append]
      have h0 : sumAbsDev [] a = 0 := rfl
      have h0' : sumAbsDev [] p = 0 := rfl
      have he1 : |a - a| = 0 := by simp
      have he2 : |b - a| = b - a := abs_of_nonneg (by linarith)
      have := pair_le a b p
      rw [h0, h0', he1, he2]
      linarith
    · have hk : 0 < mid.length := List.length_pos.mpr hmidnil
      have hs' : List.Sorted (· ≤ ·) (mid ++ [b]) := hs.of_cons
      have hmidsort : List.Sorted (· ≤ ·) mid := (List.pairwise_append.mp hs').1
      have hmidb : ∀ x ∈ mid, x ≤ b := fun x hx =>
        (List.pairwise_append.mp hs').2.2 x hx b (by simp)
      have hamid : ∀ x ∈ mid ++ [b], a ≤ x := List.rel_of_sorted_cons hs
      obtain ⟨j, hj1, hj2⟩ : ∃ j, (mid.length + 1) / 2 = j + 1 ∧
          j = (mid.length - 1) / 2 := ⟨(mid.length - 1) / 2, by omega, rfl⟩
      have hjlt : j < mid.length := by omega
      have hmed : medSorted (a :: (mid ++ [b])) = medSorted mid := by
        unfold medSorted
        have hidx : ((a :: (mid ++ [b])).length - 1) / 2 = j + 1 := by
          simp only [List.length_cons, List.length_append, List.length_singleton,
            List.length_nil]
          omega
        rw [hidx, List.getD_cons_succ, List.getD_append mid [b] 0 j hjlt, ← hj2]
      have hmedmem : medSorted mid ∈ mid := by
        unfold medSorted
        rw [List.getD_eq_getElem mid 0 (show (mid.length - 1) / 2 < mid.length by omega)]
        exact List.getElem_mem _
      have ham : a ≤ medSorted mid := hamid _ (List.mem_append_left _ hmedmem)
      have hmb : medSorted mid ≤ b := hmidb _ hmedmem
      have hlt : mid.length < n := by
        simp only [List.length_cons, List.length_append, List.length_singleton,
          List.length_nil] at hlen
        omega
      have hIH := ih mid.length hlt mid rfl hmidsort hmidnil
      rw [hmed, sumAbsDev_cons_append, sumAbsDev_cons_append]
      have e1 := pair_eq a b (medSorted mid) ham hmb
      have e2 := pair_le a b p
      have e3 := hIH p
      linarith


theorem lowerMedian_eq_medSorted (l : List Int) :
    lowerMedian l = medSorted (l.insertionSort (· ≤ ·)) := by
  unfold lowerMedian medSorted
  rw [List.length_insertionSort]

theorem lowerMedian_min (l : List Int) (h : l ≠ []) (p : Int) :
    sumAbsDev l (lowerMedian l) ≤ sumAbsDev l p := by
  have hperm := List.perm_insertionSort (· ≤ ·) l
  have hsort : List.Sorted (· ≤ ·) (l.insertionSort (· ≤ ·)) :=
    List.sorted_insertionSort (· ≤ ·) l
  have hne : l.insertionSort (· ≤ ·) ≠ [] := by
    intro h0
    have hl := hperm.length_eq
    rw [h0] at hl
    exact h (List.length_eq_zero.mp hl.symm)
  rw [lowerMedian_eq_medSorted]
  calc sumAbsDev l (medSorted (l.insertionSort (· ≤ ·)))
      = sumAbsDev (l.insertionSort (· ≤ ·)) (medSorted (l.insertionSort (· ≤ ·))) :=
        (sumAbsDev_perm hperm _).symm
    _ ≤ sumAbsDev (l.insertionSort (· ≤ ·)) p :=
        medSorted_min (l.insertionSort (· ≤ ·)).length _ rfl hsort hne p
    _ = sumAbsDev l p := sumAbsDev_perm hperm p

theorem rawShifts_eq_gaps (p : Int) :
    ∀ run : List Int, rawShifts p run = (gapsOf run).map (fun g => g - p) := by
  intro run
  induction run with
  | nil => rfl
  | cons a t ih =>
      cases t with
      | nil => rfl
      | cons b rest =>
          show (b - a - p) :: rawShifts p (b :: rest) =
            ((b - a) :: gapsOf (b :: rest)).map (fun g => g - p)
          rw [List.map_cons, ← ih]

theorem totalDev_eq (run : List Int) (p : Int) :
    totalDev run p = sumAbsDev (gapsOf run) p := by
  unfold totalDev sumAbsDev
  rw [rawShifts_eq_gaps, List.map_map]
  rfl

theorem gapsOf_length (run : List Int) : (gapsOf run).length = run.length - 1 := by
  simp [gapsOf]

theorem chosenPeriod_min (run : List Int) (h : 2 ≤ run.length) (q : Int) :
    totalDev run (chosenPeriod run) ≤ totalDev run q := by
  rw [totalDev_eq, totalDev_eq]
  apply lowerMedian_min
  intro h0
  have hl := gapsOf_length run
  rw [h0] at hl
  simp at hl
  omega

end PCM

namespace PCM

/-! ## Event index -/

theorem sorted_nodup_eq {α : Type} [LinearOrder α] {l l' : List α}
    (hs : l.Sorted (· ≤ ·)) (hs' : l'.Sorted (· ≤ ·))
    (hn : l.Nodup) (hn' : l'.Nodup) (hmem : ∀ x, x ∈ l ↔ x ∈ l') : l = l' := by
  apply List.eq_of_perm_of_sorted ?_ hs hs'
  rw [List.perm_iff_count]
  intro x
  by_cases hx : x ∈ l
  · rw [List.count_eq_one_of_mem hn hx,
      List.count_eq_one_of_mem hn' ((hmem x).mp hx)]
  · rw [List.count_eq_zero_of_not_mem hx,
      List.count_eq_zero_of_not_mem (fun h => hx ((hmem x).mpr h))]

theorem perLabel_sorted (log : EventLog) (a : Label) :
    (perLabel log a).Sorted (· ≤ ·) :=
  List.Pairwise.sublist (List.dedup_sublist _) (List.sorted_insertionSort _ _)

theorem perLabel_nodup (log : EventLog) (a : Label) : (perLabel log a).Nodup :=
  List.nodup_dedup _

theorem mem_perLabel {log : EventLog} {a : Label} {t : Timestamp} :
    t ∈ perLabel log a ↔ (a, t) ∈ log := by
  unfold perLabel
  rw [List.mem_dedup, (List.perm_insertionSort _ _).mem_iff, List.mem_filterMap]
  constructor
  · rintro ⟨o, ho, heq⟩
    by_cases h : o.1 = a
    · rw [if_pos h] at heq
      have h2 := Option.some.inj heq
      have : o = (a, t) := by
        rcases o with ⟨oa, ot⟩
        simp only at h h2
        rw [h, h2]
      exact this ▸ ho
    · rw [if_neg h] at heq
      exact absurd heq (by simp)
  · intro h
    exact ⟨(a, t), h, by simp⟩

theorem labelsOf_sorted (log : EventLog) : (labelsOf log).Sorted (· ≤ ·) :=
  List.Pairwise.sublist (List.dedup_sublist _) (List.sorted_insertionSort _ _)

theorem labelsOf_nodup (log : EventLog) : (labelsOf log).Nodup :=
  List.nodup_dedup _

theorem mem_labelsOf {log : EventLog} {a : Label} :
    a ∈ labelsOf log ↔ a ∈ log.map Prod.fst := by
  unfold labelsOf
  rw [List.mem_dedup, (List.perm_insertionSort _ _).mem_iff]

theorem perLabel_eq_nil_of_not_mem {log : EventLog} {a : Label}
    (h : a ∉ labelsOf log) : perLabel log a = [] := by
  rcases hl : perLabel log a with _ | ⟨t, ts⟩
  · rfl
  · exfalso
    have ht : t ∈ perLabel log a := by rw [hl]; exact List.mem_cons_self _ _
    have : (a, t) ∈ log := mem_perLabel.mp ht
    exact h (mem_labelsOf.mpr (List.mem_map.mpr ⟨(a, t), this, rfl⟩))

theorem monoB_iff : ∀ l : List Int, monoB l = true ↔ l.Pairwise (· ≤ ·) := by
  intro l
  induction l with
  | nil => simp [monoB]
  | cons a t ih =>
      cases t with
      | nil => simp [monoB]
      | cons b r =>
          rw [monoB, Bool.and_eq_true, decide_eq_true_iff, ih]
          constructor
          · rintro ⟨hab, hp⟩
            refine List.Pairwise.cons ?_ hp
            intro x hx
            rcases List.mem_cons.mp hx with rfl | hx'
            · exact hab
            · exact le_trans hab (List.rel_of_pairwise_cons hp hx')
          · intro hp
            rcases List.pairwise_cons.mp hp with ⟨h1, h2⟩
            exact ⟨h1 b (List.mem_cons_self _ _), h2⟩

theorem timesMono_dedup {log : EventLog} (h : timesMono log = true) :
    timesMono log.dedup = true := by
  unfold timesMono at *
  rw [monoB_iff] at *
  exact List.Pairwise.sublist (List.Sublist.map Prod.snd (List.dedup_sublist log)) h

theorem perLabel_dedup (log : EventLog) (a : Label) :
    perLabel log.dedup a = perLabel log a := by
  apply sorted_nodup_eq (perLabel_sorted _ _) (perLabel_sorted _ _)
    (perLabel_nodup _ _) (perLabel_nodup _ _)
  intro t
  rw [mem_perLabel, mem_perLabel, List.mem_dedup]

theorem labelsOf_dedup (log : EventLog) : labelsOf log.dedup = labelsOf log := by
  apply sorted_nodup_eq (labelsOf_sorted _) (labelsOf_sorted _)
    (labelsOf_nodup _) (labelsOf_nodup _)
  intro x
  rw [mem_labelsOf, mem_labelsOf]
  constructor
  · intro h
    obtain ⟨o, ho, rfl⟩ := List.mem_map.mp h
    exact List.mem_map.mpr ⟨o, List.mem_dedup.mp ho, rfl⟩
  · intro h
    obtain ⟨o, ho, rfl⟩ := List.mem_map.mp h
    exact List.mem_map.mpr ⟨o, List.mem_dedup.mpr ho, rfl⟩

end PCM

namespace PCM

/-! ## The cover search -/

theorem coversF_ne_nil (L : Nat) :
    ∀ (f : Nat) (ts : List Int), ts.length ≤ f → coversF L f ts ≠ [] := by
  intro f
  induction f with
  | zero =>
      intro ts h
      have : ts = [] := List.length_eq_zero.mp (by omega)
      subst this
      simp [coversF]
  | succ f ih =>
      intro ts h
      rcases ts with _ | ⟨t, rest⟩
      · simp [coversF]
      · rw [coversF]
        intro h0
        rcases List.append_eq_nil.mp h0 with ⟨h1, _⟩
        exact ih rest (by simpa using h) (List.map_eq_nil_iff.mp h1)

theorem coversF_sound (L : Nat) :
    ∀ (f : Nat) (ts : List Int), ts.length ≤ f →
      ∀ cov ∈ coversF L f ts, (cov.map Seg.points).flatten = ts ∧
        ∀ s ∈ cov, ∀ run, s = Seg.cyc run → 2 ≤ run.length := by
  intro f
  induction f with
  | zero =>
      intro ts h cov hcov
      have : ts = [] := List.length_eq_zero.mp (by omega)
      subst this
      simp only [coversF, List.mem_singleton] at hcov
      subst hcov
      simp
  | succ f ih =>
      intro ts h cov hcov
      rcases ts with _ | ⟨t, rest⟩
      · simp only [coversF, List.mem_singleton] at hcov
        subst hcov
        simp
      · rw [coversF] at hcov
        rcases List.mem_append.mp hcov with hres | hcyc
        · obtain ⟨c, hc, rfl⟩ := List.mem_map.mp hres
          obtain ⟨hflat, hseg⟩ := ih rest (by simpa using h) c hc
          refine ⟨by simp [Seg.points, hflat], ?_⟩
          intro s hs run hrun
          rcases List.mem_cons.mp hs with rfl | hs'
          · simp at hrun
          · exact hseg s hs' run hrun
        · obtain ⟨r, hr, hmem⟩ := List.mem_flatMap.mp hcyc
          obtain ⟨c, hc, rfl⟩ := List.mem_map.mp hmem
          obtain ⟨hr2, hrle⟩ : 2 ≤ r ∧ r ≤ min L (rest.length + 1) := by
            rcases List.mem_filter.mp hr with ⟨hrange, h2⟩
            exact ⟨by simpa using h2, by have := List.mem_range.mp hrange; omega⟩
          have hdroplen : ((t :: rest).drop r).length ≤ f := by
            rw [List.length_drop]
            simp only [List.length_cons]
            simp only [List.length_cons] at h
            omega
          obtain ⟨hflat, hseg⟩ := ih ((t :: rest).drop r) hdroplen c hc
          refine ⟨?_, ?_⟩
          · simp only [List.map_cons, List.flatten_cons, Seg.points, hflat]
            exact List.take_append_drop r (t :: rest)
          · intro s hs run hrun
            rcases List.mem_cons.mp hs with rfl | hs'
            · have hrr : run = (t :: rest).take r := by
                injection hrun.symm
              rw [hrr, List.length_take]
              simp only [List.length_cons]
              omega
            · exact hseg s hs' run hrun

theorem better_eq_or (span : Nat) (b c : List Seg) :
    better span b c = b ∨ better span b c = c := by
  unfold better
  split_ifs
  · exact Or.inr rfl
  · exact Or.inr rfl
  · exact Or.inl rfl

theorem foldl_better_mem (span : Nat) :
    ∀ (cs : List (List Seg)) (c : List Seg), cs.foldl (better span) c ∈ c :: cs := by
  intro cs
  induction cs with
  | nil => intro c; simp
  | cons x cs ih =>
      intro c
      simp only [List.foldl_cons]
      have h := ih (better span c x)
      rcases List.mem_cons.mp h with heq | hmem
      · rw [heq]
        rcases better_eq_or span c x with h1 | h1 <;> rw [h1] <;> simp
      · exact List.mem_cons_of_mem _ (List.mem_cons_of_mem _ hmem)

theorem pickBest_mem (span : Nat) (l : List (List Seg)) (h : l ≠ []) :
    pickBest span l ∈ l := by
  rcases l with _ | ⟨c, cs⟩
  · exact absurd rfl h
  · exact foldl_better_mem span cs c

theorem mineCover_sound (L : Nat) (ts : List Int) :
    ((mineCover L ts).map Seg.points).flatten = ts ∧
      ∀ s ∈ mineCover L ts, ∀ run, s = Seg.cyc run → 2 ≤ run.length := by
  have hne := coversF_ne_nil L ts.length ts le_rfl
  have hmem := pickBest_mem (spanOf ts) _ hne
  exact coversF_sound L ts.length ts le_rfl _ hmem

/-! ## Reconstruction -/

theorem mkCycle_decode {run : List Int} (h : run ≠ []) :
    (mkCycle run).decode = run := by
  unfold mkCycle Cycle.decode
  exact decode_encodeShifts _ run h

theorem cover_split_perm :
    ∀ cov : List Seg, (∀ s ∈ cov, ∀ run, s = Seg.cyc run → 2 ≤ run.length) →
      (((coverCycles cov).map Cycle.decode).flatten ++ coverResiduals cov).Perm
        ((cov.map Seg.points).flatten) := by
  intro cov
  induction cov with
  | nil => simp [coverCycles, coverResiduals]
  | cons s rest ih =>
      intro h
      have hrest := fun s hs run hrun => h s (List.mem_cons_of_mem _ hs) run hrun
      cases s with
      | resid t =>
          simp only [coverCycles, coverResiduals, List.filterMap_cons,
            List.map_cons, List.flatten_cons, Seg.points]
          exact List.perm_middle.trans ((ih hrest).cons t)
      | cyc run =>
          have hlen : 2 ≤ run.length := h _ (List.mem_cons_self _ _) run rfl
          have hne : run ≠ [] := by
            intro h0
            rw [h0] at hlen
            simp at hlen
          simp only [coverCycles, coverResiduals, List.filterMap_cons,
            List.map_cons, List.flatten_cons, Seg.points, mkCycle_decode hne]
          rw [List.append_assoc]
          exact List.Perm.append_left run (ih hrest)

theorem reconstructEntry_mkEntry (L : Nat) (a : Label) (ts : List Int)
    (hs : ts.Sorted (· ≤ ·)) :
    reconstructEntry (mkEntry L a ts) = ts := by
  unfold reconstructEntry mkEntry
  obtain ⟨hflat, hseg⟩ := mineCover_sound L ts
  have hperm : (((coverCycles (mineCover L ts)).map Cycle.decode).flatten ++
      coverResiduals (mineCover L ts)).Perm ts := by
    have h := cover_split_perm _ hseg
    rw [hflat] at h
    exact h
  exact List.eq_of_perm_of_sorted ((List.perm_insertionSort _ _).trans hperm)
    (List.sorted_insertionSort _ _) hs

theorem find?_entries (L : Nat) (log : EventLog) (a : Label) :
    ∀ ls : List Label,
      ((ls.map fun x => mkEntry L x (perLabel log x)).find?
          (fun e => e.label == a)) =
        if a ∈ ls then some (mkEntry L a (perLabel log a)) else none := by
  intro ls
  induction ls with
  | nil => simp
  | cons x ls ih =>
      simp only [List.map_cons, List.find?_cons]
      by_cases hx : x = a
      · subst hx
        have hcond : ((mkEntry L x (perLabel log x)).label == x) = true := by
          simp [mkEntry]
        rw [hcond]
        simp
      · have hcond : ((mkEntry L x (perLabel log x)).label == a) = false := by
          simp [mkEntry, hx]
        rw [hcond]
        show ((ls.map fun x => mkEntry L x (perLabel log x)).find?
          (fun e => e.label == a)) = _
        rw [ih]
        have hmem : (a ∈ x :: ls) ↔ (a ∈ ls) := by
          constructor
          · intro h
            rcases List.mem_cons.mp h with rfl | h'
            · exact absurd rfl hx
            · exact h'
          · exact List.mem_cons_of_mem x
        by_cases ha : a ∈ ls
        · rw [if_pos ha, if_pos (hmem.mpr ha)]
        · rw [if_neg ha, if_neg (fun h => ha (hmem.mp h))]

end PCM

namespace PCM

/-! ## The fit pipeline -/

theorem fit_eq_ok {cfg : Config} {log : EventLog} {m : Model}
    (h : fit cfg log = .ok m) :
    log ≠ [] ∧ timesMono log = true ∧
      m = { entries := (labelsOf log).map fun a =>
              mkEntry cfg.maxLength a (perLabel log a)
            warnings := if log.dedup = log then [] else [.duplicates]
            keptResiduals := cfg.keepResiduals } := by
  unfold fit at h
  by_cases h1 : log = []
  · rw [if_pos h1] at h
    simp at h
  rw [if_neg h1] at h
  by_cases h2 : timesMono log = false
  · rw [if_pos h2] at h
    simp at h
  rw [if_neg h2] at h
  refine ⟨h1, ?_, (Except.ok.inj h).symm⟩
  revert h2
  cases timesMono log <;> simp

theorem truncZeros_length_le (l : List Int) : (truncZeros l).length ≤ l.length := by
  unfold truncZeros
  rw [List.length_reverse]
  calc (l.reverse.dropWhile (· == 0)).length ≤ l.reverse.length :=
        (List.dropWhile_sublist _).length_le
    _ = l.length := List.length_reverse l

theorem rawShifts_length (p : Int) :
    ∀ run : List Int, (rawShifts p run).length = run.length - 1 := by
  intro run
  induction run with
  | nil => rfl
  | cons a t ih =>
      cases t with
      | nil => rfl
      | cons b rest =>
          show (rawShifts p (b :: rest)).length + 1 = (b :: rest).length + 1 - 1
          rw [ih]
          simp

theorem mineCover_nil (L : Nat) : mineCover L [] = [] := rfl

theorem mineCover_singleton (L : Nat) (t : Int) :
    mineCover L [t] = [Seg.resid t] := by
  unfold mineCover
  have hfil : (List.range (min L 1 + 1)).filter (fun r => decide (2 ≤ r)) = [] := by
    have h01 : min L 1 = 0 ∨ min L 1 = 1 := by omega
    rcases h01 with h | h <;> rw [h] <;> rfl
  have hcov : coversF L 1 [t] = [[Seg.resid t]] := by
    show coversF L (0 + 1) (t :: []) = [[Seg.resid t]]
    rw [coversF]
    simp only [List.length_nil, Nat.zero_add, hfil, List.flatMap_nil,
      List.append_nil]
    rfl
  simp only [List.length_singleton, hcov]
  rfl

theorem reconstructLabel_ok {cfg : Config} {log : EventLog} {m : Model}
    (hfit : fit cfg log = .ok m) (a : Label) :
    reconstructLabel m a = perLabel log a := by
  obtain ⟨_, _, hm⟩ := fit_eq_ok hfit
  have hent : m.entries = (labelsOf log).map fun x =>
      mkEntry cfg.maxLength x (perLabel log x) := by rw [hm]
  unfold reconstructLabel
  rw [hent, find?_entries]
  by_cases ha : a ∈ labelsOf log
  · rw [if_pos ha]
    exact reconstructEntry_mkEntry cfg.maxLength a (perLabel log a)
      (perLabel_sorted _ _)
  · rw [if_neg ha]
    exact (perLabel_eq_nil_of_not_mem ha).symm

end PCM

namespace PCM

/-! # Claim theorems -/

/-- C1: for every input event log accepted by `fit`, `reconstruct` returns
exactly the deduplicated input occurrence set: for every label, the
occurrences obtained by decoding all of that label's selected cycles,
together with that label's residual occurrences, equal the label's
deduplicated input (label, timestamp) pairs — regardless of how the
selector split occurrences between cycles and residuals. -/
theorem C1_reconstruct_roundtrip (cfg : Config) (log : EventLog) (m : Model)
    (hfit : fit cfg log = .ok m) (a : Label) :
    reconstructLabel m a = perLabel log a ∧
      ∀ t, t ∈ reconstructLabel m a ↔ (a, t) ∈ log := by
  have hrec := reconstructLabel_ok hfit a
  exact ⟨hrec, fun t => hrec ▸ mem_perLabel⟩

set_option maxRecDepth 100000 in
theorem C1_reconstruct_roundtrip_witness :
    ∃ m, fit {} [(0, 0), (0, 3)] = .ok m ∧
      reconstructLabel m 0 = perLabel [(0, 0), (0, 3)] 0 ∧
      perLabel [(0, 0), (0, 3)] 0 = [0, 3] := by
  rcases hfit : fit {} [(0, 0), (0, 3)] with e | m
  · have hok : (fit ({} : Config) [(0, 0), (0, 3)]).isOk = true := by decide
    rw [hfit] at hok
    exact Bool.noConfusion hok
  · exact ⟨m, rfl, (C1_reconstruct_roundtrip {} [(0, 0), (0, 3)] m hfit 0).1,
      by decide⟩

/-- C2: for every occurrence run of length at least 2 and any period `p`,
the shift codec round-trips: decoding the encoded (trailing-zero truncated)
shifts from the run's start regenerates the run exactly. -/
theorem C2_codec_roundtrip (ts : List Int) (p : Int) (h : 2 ≤ ts.length) :
    decodeTimes ts.length (ts.headD 0) p (encodeShifts ts p) = ts :=
  decode_encodeShifts p ts (by
    intro h0
    rw [h0] at h
    simp at h)

theorem C2_codec_roundtrip_witness :
    decodeTimes ([0, 5, 11] : List Int).length (([0, 5, 11] : List Int).headD 0) 5
      (encodeShifts [0, 5, 11] 5) = [0, 5, 11] :=
  C2_codec_roundtrip [0, 5, 11] 5 (by decide)

set_option maxRecDepth 1000000 in
/-- C3: on the single-label input with occurrence times
[0, 1439, 2879, 4320, 5762, 10080] (minutes), `fit` then `discover` yields
exactly one cycle of length 5, whose start is the first timestamp 0, whose
period 1440 is within 1 of 1440, whose shift corrections [-1, 0, 1, 2] sum
to a value of magnitude at most 2 (near zero), whose decoded occurrences
are the first five timestamps, and the 6th occurrence 10080 is reported as
residual rather than covered. -/
theorem C3_noise_tolerance :
    (fit { maxLength := 20, keepResiduals := true }
        [(0, 0), (0, 1439), (0, 2879), (0, 4320), (0, 5762), (0, 10080)]).map
      discover =
      .ok [{ label := 0, idx := 0, start := 0, len := 5, period := 1440 }] ∧
    (fit { maxLength := 20, keepResiduals := true }
        [(0, 0), (0, 1439), (0, 2879), (0, 4320), (0, 5762), (0, 10080)]).map
      discoverShifts =
      .ok [({ label := 0, idx := 0, start := 0, len := 5, period := 1440 },
        [-1, 0, 1, 2])] ∧
    (fit { maxLength := 20, keepResiduals := true }
        [(0, 0), (0, 1439), (0, 2879), (0, 4320), (0, 5762), (0, 10080)]).map
      getResiduals = .ok (some [(0, 10080)]) ∧
    (fit { maxLength := 20, keepResiduals := true }
        [(0, 0), (0, 1439), (0, 2879), (0, 4320), (0, 5762), (0, 10080)]).map
      (fun m => m.entries.map fun e => e.cycles.map Cycle.decode) =
      .ok [[[0, 1439, 2879, 4320, 5762]]] ∧
    ((1440 : Int) - 1440).natAbs ≤ 1 ∧
    ([-1, 0, 1, 2] : List Int).sum.natAbs ≤ 2 :=
  ⟨by decide, by decide, by decide, by decide, by decide, by decide⟩

/-- C4: for every run of at least two occurrences, the period chosen for
the candidate cycle is the median of the run's inter-occurrence gaps with
ties broken toward the smaller value (the lower median), and it minimizes
the total magnitude of the shift corrections needed to fit the run to a
uniform grid. -/
theorem C4_period_median_min (run : List Int) (h : 2 ≤ run.length) :
    chosenPeriod run = lowerMedian (gapsOf run) ∧
      ∀ q : Int, totalDev run (chosenPeriod run) ≤ totalDev run q :=
  ⟨rfl, fun q => chosenPeriod_min run h q⟩

theorem C4_period_median_min_witness :
    chosenPeriod [0, 5, 11] = lowerMedian (gapsOf [0, 5, 11]) ∧
      totalDev [0, 5, 11] (chosenPeriod [0, 5, 11]) ≤ totalDev [0, 5, 11] 7 :=
  ⟨(C4_period_median_min [0, 5, 11] (by decide)).1,
    (C4_period_median_min [0, 5, 11] (by decide)).2 7⟩

/-- C5: when the (nonempty, monotone) input log contains duplicate
(label, timestamp) pairs, `fit` does not abort: it succeeds, reports the
duplicates warning, and the mined catalogue and residuals are exactly those
of the deduplicated log (each duplicate group merged into one occurrence,
for which `fit` raises no warning). -/
theorem C5_duplicates_warned_merged (cfg : Config) (log : EventLog)
    (hne : log ≠ []) (hmono : timesMono log = true) (hdup : ¬log.Nodup) :
    ∃ m m', fit cfg log = .ok m ∧ Warning.duplicates ∈ m.warnings ∧
      fit cfg log.dedup = .ok m' ∧ m'.warnings = [] ∧ m.entries = m'.entries := by
  have hdne : log.dedup ≠ [] := by
    intro h0
    rcases log with _ | ⟨o, rest⟩
    · exact hne rfl
    · have : (o :: rest).dedup ≠ [] := by
        intro hd
        have : o ∈ (o :: rest).dedup := List.mem_dedup.mpr (List.mem_cons_self _ _)
        rw [hd] at this
        simp at this
      exact this h0
  have hdmono := timesMono_dedup hmono
  have h1 : fit cfg log = .ok
      { entries := (labelsOf log).map fun a =>
          mkEntry cfg.maxLength a (perLabel log a)
        warnings := [.duplicates]
        keptResiduals := cfg.keepResiduals } := by
    unfold fit
    rw [if_neg hne, if_neg (by rw [hmono]; simp),
      if_neg (fun h => hdup (List.dedup_eq_self.mp h))]
  have h2 : fit cfg log.dedup = .ok
      { entries := (labelsOf log.dedup).map fun a =>
          mkEntry cfg.maxLength a (perLabel log.dedup a)
        warnings := []
        keptResiduals := cfg.keepResiduals } := by
    unfold fit
    rw [if_neg hdne, if_neg (by rw [hdmono]; simp),
      if_pos (List.dedup_eq_self.mpr (List.nodup_dedup _))]
  refine ⟨_, _, h1, by simp, h2, rfl, ?_⟩
  show (labelsOf log).map (fun a => mkEntry cfg.maxLength a (perLabel log a)) =
    (labelsOf log.dedup).map fun a => mkEntry cfg.maxLength a (perLabel log.dedup a)
  rw [labelsOf_dedup]
  apply List.map_congr_left
  intro a _
  rw [perLabel_dedup]

theorem C5_duplicates_warned_merged_witness :
    ∃ m m', fit {} [(0, 1), (0, 1), (0, 4)] = .ok m ∧
      Warning.duplicates ∈ m.warnings ∧
      fit {} ([(0, 1), (0, 1), (0, 4)] : EventLog).dedup = .ok m' ∧
      m'.warnings = [] ∧ m.entries = m'.entries :=
  C5_duplicates_warned_merged {} [(0, 1), (0, 1), (0, 4)] (by decide)
    (by decide) (by decide)

/-- C6: `fit` fails with a fatal input error — producing no fitted model —
exactly when the input log is empty or its timestamp sequence is malformed
(non-monotonic); the check happens before any mining. -/
theorem C6_input_error_iff (cfg : Config) (log : EventLog) :
    (∃ e, fit cfg log = .error e) ↔ (log = [] ∨ timesMono log = false) := by
  constructor
  · rintro ⟨e, he⟩
    unfold fit at he
    by_cases h1 : log = []
    · exact Or.inl h1
    rw [if_neg h1] at he
    by_cases h2 : timesMono log = false
    · exact Or.inr h2
    rw [if_neg h2] at he
    simp at he
  · rintro (h | h)
    · exact ⟨.emptyLog, by unfold fit; rw [if_pos h]⟩
    · by_cases h1 : log = []
      · exact ⟨.emptyLog, by unfold fit; rw [if_pos h1]⟩
      · exact ⟨.nonMonotonic, by unfold fit; rw [if_neg h1, if_pos h]⟩

/-- C7 (counterexample to the claim as stated): on the empty input log,
`fit` returns the empty-log input error, so no fitted model exists — the
claim's assertion that the fitted model then contains zero cycles has no
model to refer to. -/
theorem C7_empty_input_is_error :
    fit { maxLength := 20, keepResiduals := true } [] = .error .emptyLog ∧
      (fit { maxLength := 20, keepResiduals := true } ([] : EventLog)).isOk
        = false := ⟨rfl, rfl⟩

/-- C7 (amended): whenever `fit` succeeds on a log in which every label has
at most one occurrence, every catalogue entry has zero cycles (a cycle has
minimum length 2) and carries all of its label's occurrences as residuals:
a normal reported outcome, not an error; the empty log instead yields the
empty-log input error and hence, trivially, no cycles. -/
theorem C7_singletons_all_residual (cfg : Config) (log : EventLog) (m : Model)
    (hsingle : ∀ a ∈ log.map Prod.fst, (perLabel log a).length ≤ 1)
    (hfit : fit cfg log = .ok m) :
    ∀ e ∈ m.entries, e.cycles = [] ∧ e.residuals = perLabel log e.label := by
  obtain ⟨hne, hmono, hm⟩ := fit_eq_ok hfit
  subst hm
  intro e he
  obtain ⟨a, ha, rfl⟩ := List.mem_map.mp he
  have hlen : (perLabel log a).length ≤ 1 := hsingle a (mem_labelsOf.mp ha)
  rcases hts : perLabel log a with _ | ⟨t, ts⟩
  · refine ⟨rfl, ?_⟩
    show coverResiduals (mineCover cfg.maxLength []) = perLabel log a
    rw [hts]
    rfl
  · have hts0 : ts = [] := by
      rw [hts] at hlen
      simp only [List.length_cons] at hlen
      exact List.length_eq_zero.mp (by omega)
    subst hts0
    constructor
    · show coverCycles (mineCover cfg.maxLength [t]) = []
      rw [mineCover_singleton]
      rfl
    · show coverResiduals (mineCover cfg.maxLength [t]) = perLabel log a
      rw [mineCover_singleton, hts]
      rfl

set_option maxRecDepth 100000 in
theorem C7_singletons_all_residual_witness :
    (∀ a ∈ ([(1, 5), (2, 9)] : EventLog).map Prod.fst,
      (perLabel [(1, 5), (2, 9)] a).length ≤ 1) ∧
    ∃ m, fit {} [(1, 5), (2, 9)] = .ok m ∧
      ∀ e ∈ m.entries, e.cycles = [] ∧
        e.residuals = perLabel [(1, 5), (2, 9)] e.label := by
  refine ⟨by decide, ?_⟩
  rcases hfit : fit {} [(1, 5), (2, 9)] with e | m
  · have hok : (fit ({} : Config) [(1, 5), (2, 9)]).isOk = true := by decide
    rw [hfit] at hok
    exact Bool.noConfusion hok
  · exact ⟨m, rfl,
      C7_singletons_all_residual {} [(1, 5), (2, 9)] m (by decide) hfit⟩

/-- C8: increasing the magnitude of any single shift correction of a
candidate cycle, holding the length, the span the period and start are
drawn from, and all other shifts fixed, never decreases that candidate's
MDL cost; each shift contributes bits proportional to
`log2(1 + 2·|shift|)`, monotone non-decreasing in the magnitude. -/
theorem C8_cost_monotone (span r : Nat) (shifts : List Int) (i : Nat) (s' : Int)
    (h : (shifts.getD i 0).natAbs ≤ s'.natAbs) :
    candCost span r shifts ≤ candCost span r (shifts.set i s') ∧
      ∀ s u : Int, s.natAbs ≤ u.natAbs → shiftCost s ≤ shiftCost u :=
  ⟨candCost_set_le span r shifts i s' h, fun _ _ hsu => shiftCost_mono hsu⟩

theorem C8_cost_monotone_witness :
    ((([1, 2] : List Int).getD 0 0).natAbs ≤ ((-5 : Int)).natAbs) ∧
      candCost 10 3 [1, 2] ≤ candCost 10 3 (([1, 2] : List Int).set 0 (-5)) :=
  ⟨by decide, (C8_cost_monotone 10 3 [1, 2] 0 (-5) (by decide)).1⟩

/-- C9: for every cycle stored in a fitted model, the stored shift list has
at most length r − 1 (r at least 2), each shift (missing trailing entries
read as zero) equals the deviation `timestamp[i+1] − (timestamp[i] + p)`
between consecutive decoded occurrence timestamps — the same time unit as
the input — and `τ + i·p + (cumulative shifts)` reproduces the i-th
occurrence timestamp exactly. -/
theorem C9_shifts_are_grid_deviations (cfg : Config) (log : EventLog)
    (m : Model) (hfit : fit cfg log = .ok m) :
    ∀ e ∈ m.entries, ∀ c ∈ e.cycles,
      2 ≤ c.r ∧ c.shifts.length ≤ c.r - 1 ∧
      (∀ i, i + 1 < c.r →
        c.shifts.getD i 0 = c.decode.getD (i + 1) 0 - (c.decode.getD i 0 + c.p)) ∧
      (∀ i, i < c.r →
        c.decode.getD i 0 = c.tau + (i : Int) * c.p + sumShifts c.shifts i) := by
  obtain ⟨hne, hmono, hm⟩ := fit_eq_ok hfit
  subst hm
  intro e he c hc
  obtain ⟨a, ha, rfl⟩ := List.mem_map.mp he
  have hc' : c ∈ coverCycles (mineCover cfg.maxLength (perLabel log a)) := hc
  obtain ⟨s, hs, hsc⟩ := List.mem_filterMap.mp hc'
  obtain ⟨hflat, hseg⟩ := mineCover_sound cfg.maxLength (perLabel log a)
  rcases s with t | run
  · simp at hsc
  · have hcr : c = mkCycle run := (Option.some.inj hsc).symm
    have hrun2 : 2 ≤ run.length := hseg _ hs run rfl
    subst hcr
    refine ⟨hrun2, ?_, ?_, ?_⟩
    · show (encodeShifts run (chosenPeriod run)).length ≤ run.length - 1
      calc (truncZeros (rawShifts (chosenPeriod run) run)).length
          ≤ (rawShifts (chosenPeriod run) run).length := truncZeros_length_le _
        _ = run.length - 1 := rawShifts_length _ _
    · intro i hi
      have hstep := decode_getD_succ run.length (run.headD 0) (chosenPeriod run)
        (encodeShifts run (chosenPeriod run)) i hi
      show (encodeShifts run (chosenPeriod run)).getD i 0 =
        (decodeTimes run.length (run.headD 0) (chosenPeriod run)
            (encodeShifts run (chosenPeriod run))).getD (i + 1) 0 -
          ((decodeTimes run.length (run.headD 0) (chosenPeriod run)
            (encodeShifts run (chosenPeriod run))).getD i 0 + chosenPeriod run)
      omega
    · intro i hi
      exact decode_getD_closed i run.length hi (run.headD 0) (chosenPeriod run) _

set_option maxRecDepth 100000 in
theorem C9_shifts_are_grid_deviations_witness :
    2 ≤ (Cycle.mk 0 4 10 []).r ∧
      (Cycle.mk 0 4 10 []).decode.getD 2 0 =
        (Cycle.mk 0 4 10 []).tau + (2 : Int) * (Cycle.mk 0 4 10 []).p +
          sumShifts (Cycle.mk 0 4 10 []).shifts 2 := by
  have hfit : fit ({} : Config) [(0, 0), (0, 10), (0, 20), (0, 30)] =
      .ok ⟨[⟨0, [⟨0, 4, 10, []⟩], []⟩], [], false⟩ := by decide
  have h := C9_shifts_are_grid_deviations {} [(0, 0), (0, 10), (0, 20), (0, 30)]
    _ hfit ⟨0, [⟨0, 4, 10, []⟩], []⟩ (List.mem_cons_self _ _)
    ⟨0, 4, 10, []⟩ (List.mem_cons_self _ _)
  exact ⟨h.1, h.2.2.2 2 (by decide)⟩

/-- C10: the `fit` method returns the very miner it was called on — its
configuration unchanged and its fitted model installed, never none — so
construction and fitting chain in one expression and `discover` on the
returned miner queries the fitted model. -/
theorem C10_fit_returns_self (self : Miner) (log : EventLog) (md : Model)
    (hfit : fit self.config log = .ok md) :
    self.fitM log = .ok { config := self.config, fitted := some md } ∧
      (Miner.mk self.config (some md)).discoverM = some (discover md) := by
  constructor
  · unfold Miner.fitM
    rw [hfit]
    rfl
  · rfl

set_option maxRecDepth 100000 in
theorem C10_fit_returns_self_witness :
    (Miner.mk {} none).fitM [(0, 0), (0, 3)] =
      .ok { config := {}, fitted := some ⟨[⟨0, [], [0, 3]⟩], [], false⟩ } ∧
    (Miner.mk {} (some ⟨[⟨0, [], [0, 3]⟩], [], false⟩)).discoverM =
      some (discover ⟨[⟨0, [], [0, 3]⟩], [], false⟩) :=
  C10_fit_returns_self (Miner.mk {} none) [(0, 0), (0, 3)]
    ⟨[⟨0, [], [0, 3]⟩], [], false⟩ (by decide)

end PCM
